import Mathlib

/-!
Verification of the resource-governance layer of the mcp-server-agent
repository: SecurityValidator (path/command validation), LRUCache,
RateLimiter, and PerformanceMonitor.withConcurrencyLimit, shallowly
embedded as executable Lean definitions.
-/

/-! ## Character and string utilities (POSIX path semantics) -/

/-- Prefix test on character lists. -/
def isPrefixL : List Char → List Char → Bool
  | [], _ => true
  | _ :: _, [] => false
  | a :: as, b :: bs => a == b && isPrefixL as bs

/-- Substring (infix) test on character lists. -/
def hasInfixL (needle : List Char) : List Char → Bool
  | [] => needle.isEmpty
  | c :: rest => isPrefixL needle (c :: rest) || hasInfixL needle rest

/-- Whether `pat` occurs as a substring of `s` (model of JavaScript `String.prototype.includes` / an unanchored regex
literal). -/
def strContains (s pat : String) : Bool := hasInfixL pat.data s.data

/-- Case-insensitive substring test (model of a `/.../i` regex literal). -/
def ciContains (s pat : String) : Bool :=
  hasInfixL (pat.data.map Char.toLower) (s.data.map Char.toLower)

/-- Split a character list on a separator character
(model of `String.prototype.split` with a one-character separator). -/
def splitChar (sep : Char) : List Char → List (List Char)
  | [] => [[]]
  | c :: rest =>
    let r := splitChar sep rest
    if c == sep then [] :: r
    else
      match r with
      | [] => [[c]]
      | h :: t => (c :: h) :: t

/-- Join character lists with a separator (model of `Array.prototype.join`). -/
def joinChar (sep : Char) : List (List Char) → List Char
  | [] => []
  | [x] => x
  | x :: xs => x ++ sep :: joinChar sep xs

/-! ## Node `path.posix` normalization / resolution

Model of Node's `path.normalize` / `path.resolve` for POSIX separators,
as used by `SecurityValidator.validatePath`. -/

/-- One step of Node's `normalizeString` segment processing.  `acc` is the
output stack in reverse order (head = most recent segment).  Empty and `.`
segments are dropped; `..` pops a non-`..` segment, and is kept only when
`allowUp` (relative paths) and nothing can be popped. -/
def normStep (allowUp : Bool) (acc : List (List Char)) (seg : List Char) :
    List (List Char) :=
  if seg = [] ∨ seg = ['.'] then acc
  else if seg = ['.', '.'] then
    match acc with
    | [] => if allowUp then [['.', '.']] else []
    | top :: rest =>
      if top = ['.', '.'] then (if allowUp then ['.', '.'] :: acc else acc)
      else rest
  else seg :: acc

/-- Node `path.posix.normalize` on character lists. -/
def posixNormalizeChars (l : List Char) : List Char :=
  if l = [] then ['.']
  else
    let isAbs := l.headD ' ' == '/'
    let trailing := l.getLastD ' ' == '/'
    let stack := ((splitChar '/' l).foldl (normStep !isAbs) []).reverse
    let core := joinChar '/' stack
    if core = [] then
      if isAbs then ['/'] else if trailing then ['.', '/'] else ['.']
    else
      let core2 := if trailing then core ++ ['/'] else core
      if isAbs then '/' :: core2 else core2

/-- Node `path.posix.normalize` on strings. -/
def posixNormalize (s : String) : String := ⟨posixNormalizeChars s.data⟩

/-- Node `path.posix.resolve cwd p` for an absolute `cwd` and a single
argument `p` (character-list form): prepend `cwd` unless `p` is already
absolute, then collapse segments with `..` never escaping the root, and
drop any trailing separator. -/
def posixResolveChars (cwd l : List Char) : List Char :=
  let full := if l.headD ' ' == '/' then l else cwd ++ '/' :: l
  let stack := ((splitChar '/' full).foldl (normStep false) []).reverse
  let core := joinChar '/' stack
  if core = [] then ['/'] else '/' :: core

/-- Last path component (model of the basename scan inside `path.extname`). -/
def lastComponent (l : List Char) : List Char := (splitChar '/' l).getLastD []

/-- Node `path.extname` on character lists: the substring of the basename
from its last dot, except that a lone leading dot (hidden file) and the
basename `..` yield the empty extension. -/
def extnameChars (l : List Char) : List Char :=
  let b := lastComponent l
  if b = ['.', '.'] then []
  else
    match splitChar '.' b with
    | [] => []
    | [_] => []
    | [[], _] => []
    | parts => '.' :: parts.getLastD []

/-! ## SecurityValidator -/

/-- Control characters, i.e. the character class of the regex
`[\x00-\x1f\x7f-\x9f]` in `SecurityValidator.DANGEROUS_PATTERNS`. -/
def isCtlChar (c : Char) : Bool :=
  c.toNat ≤ 0x1f || (0x7f ≤ c.toNat && c.toNat ≤ 0x9f)

/-- ASCII letter, i.e. `[a-z]` under the `/i` flag. -/
def isAsciiLetter (c : Char) : Bool :=
  ('a' ≤ c && c ≤ 'z') || ('A' ≤ c && c ≤ 'Z')

/-- After one letter has been read: accept a `$`, keep reading letters,
reject anything else (tail of the regex `[a-z]+\$` under `/i`). -/
def lettersThenDollarTail : List Char → Bool
  | [] => false
  | c :: rest =>
    if c == '$' then true
    else if isAsciiLetter c then lettersThenDollarTail rest
    else false

/-- The regex fragment `[a-z]+\$` (with `/i`) matched at the head. -/
def lettersThenDollar : List Char → Bool
  | [] => false
  | c :: rest => isAsciiLetter c && lettersThenDollarTail rest

/-- Unanchored match of `/\\\\[a-z]+\$/i` (Windows UNC share pattern):
two backslashes, one or more letters, then a dollar sign, anywhere. -/
def uncHit : List Char → Bool
  | [] => false
  | c :: rest =>
    (c == '\\' &&
      (match rest with
       | d :: r => d == '\\' && lettersThenDollar r
       | [] => false)) || uncHit rest

/-- Anchored match of `/^[a-z]:\\/i` (Windows drive path). -/
def driveHit : List Char → Bool
  | c1 :: ':' :: '\\' :: _ => isAsciiLetter c1
  | _ => false

/-- Model of `SecurityValidator.DANGEROUS_PATTERNS`: true iff any of the twelve
patterns (traversal `..`, sensitive absolute prefixes, UNC/drive paths,
null bytes, control characters) matches the input. -/
def dangerousHit (s : String) : Bool :=
  strContains s ".." ||
  ciContains s "/etc/passwd" ||
  ciContains s "/etc/shadow" ||
  ciContains s "/proc/" ||
  ciContains s "/sys/" ||
  ciContains s "/dev/" ||
  ciContains s "/boot/" ||
  ciContains s "/root/" ||
  uncHit s.data ||
  driveHit s.data ||
  s.data.any (fun c => c == Char.ofNat 0) ||
  s.data.any isCtlChar

/-- Options of `SecurityValidator.validatePath`, with the source's
default values. -/
structure PathOptions where
  allowAbsolute : Bool := false
  maxLength : Nat := 1000
  allowedExtensions : Option (List String) := none
  blockedExtensions : List String := [".exe", ".bat", ".cmd", ".com", ".scr", ".pif"]

/-- The parts of `securityConfig` read by `validatePath`, plus the
process working directory used by `path.resolve`. -/
structure SecConfig where
  cwd : String
  allowedDirectories : List String
  blockedDirectories : List String

/-- Model of `SecurityValidator.validatePath`: the ordered, fail-fast validation
pipeline of the source — non-empty, maximum length, dangerous-pattern
scan, normalization, post-normalization traversal re-check,
absolute-path policy, extension block/allow lists, and resolved-path
containment against the configured directory lists.  Errors carry the
exact thrown messages. -/
def validatePath (cfg : SecConfig) (opts : PathOptions) (inputPath : String) :
    Except String String :=
  if inputPath = "" then
    Except.error "Invalid path: must be a non-empty string"
  else if inputPath.length > opts.maxLength then
    Except.error ("Path too long: " ++ toString inputPath.length ++
      " characters (max: " ++ toString opts.maxLength ++ ")")
  else if dangerousHit inputPath then
    Except.error "Path contains dangerous patterns"
  else
    let normalizedPath : String := ⟨posixNormalizeChars inputPath.data⟩
    if strContains normalizedPath ".." then
      Except.error "Path traversal detected after normalization"
    else if (normalizedPath.data.headD ' ' == '/') && !opts.allowAbsolute then
      Except.error "Absolute paths not allowed"
    else
      let ext : String := ⟨(extnameChars normalizedPath.data).map Char.toLower⟩
      if ext ≠ "" && opts.blockedExtensions.contains ext then
        Except.error ("File extension not allowed: " ++ ext)
      else if (match opts.allowedExtensions with
               | some allowed => ext ≠ "" && !allowed.contains ext
               | none => false) then
        Except.error ("File extension not in allowed list: " ++ ext)
      else
        let absolutePath : String := ⟨posixResolveChars cfg.cwd.data normalizedPath.data⟩
        if !(cfg.allowedDirectories.any fun d =>
              isPrefixL (posixResolveChars cfg.cwd.data d.data) absolutePath.data) then
          Except.error "Path not within allowed directories"
        else if cfg.blockedDirectories.any fun d =>
              isPrefixL (posixResolveChars cfg.cwd.data d.data) absolutePath.data then
          Except.error "Path within blocked directory"
        else
          Except.ok absolutePath

/-- Model of `SecurityValidator.DANGEROUS_COMMANDS`. -/
def DANGEROUS_COMMANDS : List String :=
  ["rm", "rmdir", "del", "format", "fdisk",
   "mkfs", "dd", "shutdown", "reboot", "halt",
   "poweroff", "init", "kill", "killall",
   "sudo", "su", "passwd", "chown", "chmod",
   "mount", "umount", "crontab", "at",
   "nc", "netcat", "telnet", "ssh", "scp",
   "wget", "curl", "ftp", "tftp"]

/-- The character class `[;&|`$(){}[\]]` of the first shell-injection
pattern (codes given numerically). -/
def isShellMeta (c : Char) : Bool :=
  [0x3b, 0x26, 0x7c, 0x60, 0x24, 0x28, 0x29, 0x7b, 0x7d, 0x5b, 0x5d].contains c.toNat

/-- JavaScript regex `\s` restricted to its ASCII members. -/
def isJsWS (c : Char) : Bool :=
  [0x20, 0x9, 0xa, 0xb, 0xc, 0xd].contains c.toNat

/-- JavaScript regex `\w`: `[A-Za-z0-9_]`. -/
def isWordChar (c : Char) : Bool :=
  isAsciiLetter c || ('0' ≤ c && c ≤ '9') || c == '_'

/-- Whitespace then a word character (tail of `/\|\s*\w+/`). -/
def wsThenWord : List Char → Bool
  | [] => false
  | c :: rest => if isJsWS c then wsThenWord rest else isWordChar c

/-- Unanchored match of `/\|\s*\w+/`. -/
def pipeWordHit : List Char → Bool
  | [] => false
  | c :: rest => (c.toNat == 0x7c && wsThenWord rest) || pipeWordHit rest

/-- Whitespace then a slash (tail of `/>\s*\/|<\s*\//`). -/
def wsThenSlash : List Char → Bool
  | [] => false
  | c :: rest => if isJsWS c then wsThenSlash rest else c == '/'

/-- Unanchored match of `/>\s*\/|<\s*\//` (redirection into system paths). -/
def redirHit : List Char → Bool
  | [] => false
  | c :: rest => ((c == '>' || c == '<') && wsThenSlash rest) || redirHit rest

/-- Number of backtick characters (code 0x60). -/
def backtickCount (l : List Char) : Nat := l.countP (fun c => c.toNat == 0x60)

/-- The `shellPatterns` scan of `validateCommand`: true iff any of the six
shell-injection patterns matches.  The backtick-pair regex `` /`[^`]*`/ ``
matches exactly when the string holds at least two backticks. -/
def shellHit (s : String) : Bool :=
  s.data.any isShellMeta ||
  strContains s "$(" ||
  decide (2 ≤ backtickCount s.data) ||
  pipeWordHit s.data ||
  strContains s "&&" ||
  strContains s "||" ||
  redirHit s.data

/-- Model of `SecurityValidator.validateCommand`: rejects empty commands, the
exact-match blocklist of destructive base commands, shell-injection
patterns over `command ++ " " ++ args.join " "`, and over-long
arguments. -/
def validateCommand (command : String) (args : List String) : Except String Unit :=
  if command = "" then
    Except.error "Invalid command: must be a non-empty string"
  else
    let baseCommand : String := ⟨((splitChar ' ' command.data).headD []).map Char.toLower⟩
    if DANGEROUS_COMMANDS.contains baseCommand then
      Except.error ("Dangerous command not allowed: " ++ baseCommand)
    else
      let fullCommand : String := ⟨command.data ++ ' ' :: joinChar ' ' (args.map String.data)⟩
      if shellHit fullCommand then
        Except.error "Command contains potentially dangerous patterns"
      else if args.any (fun a => a.length > 1000) then
        Except.error "Command argument too long"
      else
        Except.ok ()

/-- Whether an `Except` result is a rejection. -/
def isErr {ε α : Type} : Except ε α → Bool
  | Except.error _ => true
  | Except.ok _ => false

/-- The directory configuration built from the source's environment-variable
defaults (`securityConfig.allowedDirectories` / `blockedDirectories`),
with a representative absolute working directory. -/
def defaultCfg : SecConfig :=
  { cwd := "/workspace"
    allowedDirectories := [".", "./src", "./docs", "./tests", "./examples", "./data"]
    blockedDirectories := ["/etc", "/usr", "/bin", "/sbin", "/boot", "/sys", "/proc", "/dev", "/root"] }

/-! ## LRUCache

A JavaScript `Map` is modelled as an association list in insertion order
(head = oldest).  `Map.delete` removes the key, `Map.set` of an existing
key updates in place, `Map.set` of a new key appends at the tail; the
source's `delete`-then-`set` idiom therefore moves an entry to the tail
(most-recently-used position). -/

/-- One cache entry (`CacheEntry<T>` in the source). -/
structure CacheEntry (T : Type) where
  value : T
  timestamp : Nat
  accessCount : Nat
  lastAccessed : Nat
  size : Nat
deriving DecidableEq

/-- Model of `Map.get`. -/
def mapGet {A : Type} (k : String) (l : List (String × A)) : Option A :=
  (l.find? (fun p => p.1 == k)).map (fun p => p.2)

/-- Model of `Map.delete` (the map's keys are unique, so removing every binding of
`k` is the removal of the one binding). -/
def mapDelete {A : Type} (k : String) (l : List (String × A)) : List (String × A) :=
  l.filter (fun p => p.1 ≠ k)

/-- Model of `Map.set`: update in place when present, append when absent. -/
def mapSet {A : Type} (k : String) (v : A) (l : List (String × A)) : List (String × A) :=
  if l.any (fun p => p.1 == k) then
    l.map (fun p => if p.1 == k then (k, v) else p)
  else l ++ [(k, v)]

/-- The `LRUCache<T>` state: the backing map in insertion order plus the
immutable configuration and hit/miss/eviction statistics. -/
structure LRUCache (T : Type) where
  entries : List (String × CacheEntry T)
  maxSize : Nat
  ttl : Nat
  enabled : Bool
  hits : Nat := 0
  misses : Nat := 0
  evictions : Nat := 0
deriving DecidableEq

/-- A fresh cache (`new LRUCache(options)`). -/
def LRUCache.init (T : Type) (maxSize ttl : Nat) (enabled : Bool) : LRUCache T :=
  { entries := [], maxSize := maxSize, ttl := ttl, enabled := enabled }

/-- Model of `LRUCache.get` at wall-clock time `now`: misses when disabled, absent
or expired (expired entries are deleted); on a hit bumps `accessCount`,
sets `lastAccessed`, and re-inserts the entry at the tail. -/
def LRUCache.get {T : Type} (c : LRUCache T) (now : Nat) (key : String) :
    Option T × LRUCache T :=
  if !c.enabled then (none, c)
  else
    match mapGet key c.entries with
    | none => (none, { c with misses := c.misses + 1 })
    | some entry =>
      if now - entry.timestamp > c.ttl then
        (none, { c with entries := mapDelete key c.entries, misses := c.misses + 1 })
      else
        let entry2 := { entry with accessCount := entry.accessCount + 1, lastAccessed := now }
        (some entry2.value,
         { c with entries := mapDelete key c.entries ++ [(key, entry2)],
                  hits := c.hits + 1 })

/-- Model of `LRUCache.evictLRU`: delete the map's first key.  The source guards
with `if (firstKey)`, so an empty cache — or a first key equal to the
falsy empty string — evicts nothing. -/
def LRUCache.evictLRU {T : Type} (c : LRUCache T) : LRUCache T :=
  match c.entries with
  | [] => c
  | (k, _) :: rest =>
    if k = "" then c
    else { c with entries := rest, evictions := c.evictions + 1 }

/-- The `while (this.cache.size >= this.maxSize) this.evictLRU()` loop of
`LRUCache.set`.  `none` models the loop never terminating, which the
source does when `evictLRU` cannot make progress (empty map with
`maxSize = 0`, or an empty-string first key) while the guard still
holds; `fuel` bounds the recursion and `entries.length` fuel is always
sufficient for the terminating executions. -/
def evictLoop {T : Type} : Nat → LRUCache T → Option (LRUCache T)
  | fuel, c =>
    if c.entries.length < c.maxSize then some c
    else
      match fuel, c.entries with
      | 0, _ => none
      | _ + 1, [] => none
      | f + 1, (k, _) :: rest =>
        if k = "" then none
        else evictLoop f { c with entries := rest, evictions := c.evictions + 1 }

/-- Model of `LRUCache.set` with size estimator `est` (the source's
`estimateSize`, e.g. `2 * length` for strings): no-op when disabled;
otherwise delete any existing binding, evict least-recently-used entries
while the map is full, then append the fresh entry at the tail.  `none`
models the non-terminating eviction loop. -/
def LRUCache.set {T : Type} (c : LRUCache T) (est : T → Nat) (now : Nat)
    (key : String) (value : T) : Option (LRUCache T) :=
  if !c.enabled then some c
  else
    let c1 := if c.entries.any (fun p => p.1 == key) then
                { c with entries := mapDelete key c.entries }
              else c
    match evictLoop c1.entries.length c1 with
    | none => none
    | some c2 =>
      some { c2 with entries :=
        c2.entries ++ [(key, ⟨value, now, 1, now, est value⟩)] }

/-- Model of `LRUCache.has`: like `get` but only deletes expired entries, without
touching recency or statistics. -/
def LRUCache.has {T : Type} (c : LRUCache T) (now : Nat) (key : String) :
    Bool × LRUCache T :=
  if !c.enabled then (false, c)
  else
    match mapGet key c.entries with
    | none => (false, c)
    | some entry =>
      if now - entry.timestamp > c.ttl then
        (false, { c with entries := mapDelete key c.entries })
      else (true, c)

/-- Model of `LRUCache.delete`. -/
def LRUCache.del {T : Type} (c : LRUCache T) (key : String) : Bool × LRUCache T :=
  if !c.enabled then (false, c)
  else (c.entries.any (fun p => p.1 == key), { c with entries := mapDelete key c.entries })

/-- A cache operation of a client session. -/
inductive CacheOp (T : Type) where
  | setOp (now : Nat) (key : String) (value : T)
  | getOp (now : Nat) (key : String)
  | hasOp (now : Nat) (key : String)
  | delOp (key : String)

/-- Run one operation, `none` when `set` diverges. -/
def runCacheOp {T : Type} (est : T → Nat) (c : LRUCache T) :
    CacheOp T → Option (LRUCache T)
  | CacheOp.setOp now key value => c.set est now key value
  | CacheOp.getOp now key => some (c.get now key).2
  | CacheOp.hasOp now key => some (c.has now key).2
  | CacheOp.delOp key => some (c.del key).2

/-- Run a sequence of operations. -/
def runCacheOps {T : Type} (est : T → Nat) (c : LRUCache T) :
    List (CacheOp T) → Option (LRUCache T)
  | [] => some c
  | op :: ops =>
    match runCacheOp est c op with
    | none => none
    | some c2 => runCacheOps est c2 ops

/-- The keys of a cache in recency order (head = least recently used). -/
def cacheKeys {T : Type} (c : LRUCache T) : List String := c.entries.map (fun p => p.1)

/-! ## RateLimiter -/

/-- Model of `RateLimitEntry`: the stored fixed window of one identifier. -/
structure RateLimitEntry where
  count : Nat
  resetTime : Nat
  firstRequest : Nat
deriving DecidableEq

/-- Model of `RateLimitResult` as returned by `checkLimit` / `getStatus`. -/
structure RateLimitResult where
  allowed : Bool
  remaining : Nat
  resetTime : Nat
  retryAfter : Option Nat := none
deriving DecidableEq

/-- The `RateLimiter` state. -/
structure RateLimiter where
  store : List (String × RateLimitEntry)
  windowMs : Nat
  maxRequests : Nat
  enabled : Bool
deriving DecidableEq

/-- A fresh limiter. -/
def RateLimiter.init (windowMs maxRequests : Nat) (enabled : Bool) : RateLimiter :=
  { store := [], windowMs := windowMs, maxRequests := maxRequests, enabled := enabled }

/-- Ceiling of `d / 1000` on naturals (`Math.ceil` of the source). -/
def ceilDiv1000 (d : Nat) : Nat := (d + 999) / 1000

/-- Model of `RateLimiter.checkLimit` at wall-clock time `now`: always allow when
disabled; open a fresh window (`count = 1`) on the first request or once
`now ≥ resetTime`; inside an active window reject without mutating once
`count ≥ maxRequests` (with `retryAfter = ceil((resetTime − now)/1000)`),
and otherwise increment the count. -/
def RateLimiter.checkLimit (rl : RateLimiter) (now : Nat) (id : String) :
    RateLimitResult × RateLimiter :=
  if !rl.enabled then
    ({ allowed := true, remaining := rl.maxRequests, resetTime := now + rl.windowMs }, rl)
  else
    match mapGet id rl.store with
    | none =>
      ({ allowed := true, remaining := rl.maxRequests - 1, resetTime := now + rl.windowMs },
       { rl with store := mapSet id ⟨1, now + rl.windowMs, now⟩ rl.store })
    | some entry =>
      if now ≥ entry.resetTime then
        ({ allowed := true, remaining := rl.maxRequests - 1, resetTime := now + rl.windowMs },
         { rl with store := mapSet id ⟨1, now + rl.windowMs, now⟩ rl.store })
      else if entry.count ≥ rl.maxRequests then
        ({ allowed := false, remaining := 0, resetTime := entry.resetTime,
           retryAfter := some (ceilDiv1000 (entry.resetTime - now)) }, rl)
      else
        ({ allowed := true, remaining := rl.maxRequests - (entry.count + 1),
           resetTime := entry.resetTime },
         { rl with store := mapSet id { entry with count := entry.count + 1 } rl.store })

/-- Model of `RateLimiter.getStatus` at time `now`: the same window-expiry logic
applied to the returned result only.  The method reads `this.store` and
performs no write, so the limiter component of the result is the
unchanged receiver. -/
def RateLimiter.getStatus (rl : RateLimiter) (now : Nat) (id : String) :
    RateLimitResult × RateLimiter :=
  if !rl.enabled then
    ({ allowed := true, remaining := rl.maxRequests, resetTime := now + rl.windowMs }, rl)
  else
    match mapGet id rl.store with
    | none =>
      ({ allowed := true, remaining := rl.maxRequests, resetTime := now + rl.windowMs }, rl)
    | some entry =>
      if now ≥ entry.resetTime then
        ({ allowed := true, remaining := rl.maxRequests, resetTime := now + rl.windowMs }, rl)
      else
        ({ allowed := decide (entry.count < rl.maxRequests),
           remaining := rl.maxRequests - entry.count,
           resetTime := entry.resetTime,
           retryAfter := if entry.count ≥ rl.maxRequests then
                           some (ceilDiv1000 (entry.resetTime - now))
                         else none }, rl)

/-! ## PerformanceMonitor.withConcurrencyLimit

The per-category `ConcurrencyLimiter` record is `{ maxConcurrent, current,
queue }`.  Execution of `withConcurrencyLimit` is modelled as a labelled
transition system whose atomic steps are exactly the code's uninterrupted
synchronous sections:

* `call id` — the body up to the first suspension: the caller either
  increments `current` and starts running (when `current < maxConcurrent`)
  or pushes its resolver onto `queue` and suspends;
* `resume id` — the continuation of a queued caller after its resolver
  has been invoked: it increments `current` (without re-checking the
  limit) and starts running;
* `finish id ok` — the `finally` block: decrement `current`, shift the
  queue, and invoke the shifted resolver, which marks that waiter as
  woken (its continuation, a microtask, runs at a later `resume` step).
  `ok` records whether the awaited operation succeeded or threw; the
  `finally` block runs identically in both cases.

Task identifiers name distinct invocations, so a `call` requires a fresh
identifier.  `woken` waiters resume in the order their resolvers were
invoked (the microtask queue is FIFO). -/

/-- State of one category's limiter together with the scheduler-visible
task sets. -/
structure CLimiter where
  maxConcurrent : Nat
  current : Nat
  queue : List Nat
  woken : List Nat
  running : List Nat
  finished : List Nat
deriving DecidableEq

/-- The limiter of a category as initialized by the
`PerformanceMonitor` constructor: `current = 0`, empty queue. -/
def CLimiter.start (m : Nat) : CLimiter :=
  { maxConcurrent := m, current := 0, queue := [], woken := [], running := [], finished := [] }

/-- One scheduler event. -/
inductive CEvent where
  | call (id : Nat)
  | resume (id : Nat)
  | finish (id : Nat) (ok : Bool)
deriving DecidableEq

/-- One atomic step; `none` when the event is not enabled in the state. -/
def cstep (s : CLimiter) : CEvent → Option CLimiter
  | CEvent.call id =>
    if s.queue.contains id || s.woken.contains id || s.running.contains id
        || s.finished.contains id then none
    else if s.current ≥ s.maxConcurrent then
      some { s with queue := s.queue ++ [id] }
    else
      some { s with current := s.current + 1, running := s.running ++ [id] }
  | CEvent.resume id =>
    match s.woken with
    | [] => none
    | w :: rest =>
      if w = id then
        some { s with woken := rest, current := s.current + 1, running := s.running ++ [id] }
      else none
  | CEvent.finish id _ok =>
    if s.running.contains id then
      let s1 := { s with running := s.running.erase id,
                         finished := s.finished ++ [id],
                         current := s.current - 1 }
      match s.queue with
      | [] => some s1
      | q :: qs => some { s1 with queue := qs, woken := s1.woken ++ [q] }
    else none

/-- Run a sequence of events; `none` when some event is not enabled. -/
def runTrace (s : CLimiter) : List CEvent → Option CLimiter
  | [] => some s
  | e :: es =>
    match cstep s e with
    | none => none
    | some s2 => runTrace s2 es

/-- The identifier a `call` event enqueues in state `s` (empty when the
caller is admitted immediately or the event is not a call). -/
def eventEnq (s : CLimiter) : CEvent → List Nat
  | CEvent.call id => if s.current ≥ s.maxConcurrent then [id] else []
  | _ => []

/-- The identifier a `resume` event admits. -/
def eventRes : CEvent → List Nat
  | CEvent.resume id => [id]
  | _ => []

/-- The identifier a `finish` event completes. -/
def eventFin : CEvent → List Nat
  | CEvent.finish id _ => [id]
  | _ => []

/-- The identifiers enqueued (callers that found the limiter full), in
arrival order, along a trace. -/
def enqSeq (s : CLimiter) : List CEvent → List Nat
  | [] => []
  | e :: es =>
    match cstep s e with
    | none => []
    | some s2 => eventEnq s e ++ enqSeq s2 es

/-- The identifiers of queued callers admitted (resumed), in admission
order, along a trace. -/
def resumeSeq (s : CLimiter) : List CEvent → List Nat
  | [] => []
  | e :: es =>
    match cstep s e with
    | none => []
    | some s2 => eventRes e ++ resumeSeq s2 es

/-- The identifiers of finished operations, in completion order, along a
trace. -/
def finishSeq (s : CLimiter) : List CEvent → List Nat
  | [] => []
  | e :: es =>
    match cstep s e with
    | none => []
    | some s2 => eventFin e ++ finishSeq s2 es

/-- Whether every `call` along a trace arrives while no woken waiter is
still pending resumption (no caller runs its fast path between a slot
release and the resumption of the waiter that release woke). -/
def callsSafe (s : CLimiter) : List CEvent → Bool
  | [] => true
  | e :: es =>
    (match e with
     | CEvent.call _ => s.woken.isEmpty
     | _ => true) &&
    (match cstep s e with
     | none => true
     | some s2 => callsSafe s2 es)

/-- Every task identifier tracked by the scheduler state, over all four
disjoint populations (queued, woken, running, finished). -/
def allIds (s : CLimiter) : List Nat := s.queue ++ (s.woken ++ (s.running ++ s.finished))

/-- Number of `resume` events. -/
def numResumes (es : List CEvent) : Nat :=
  es.countP (fun e => match e with | CEvent.resume _ => true | _ => false)

/-- Number of `finish` events. -/
def numFinishes (es : List CEvent) : Nat :=
  es.countP (fun e => match e with | CEvent.finish _ _ => true | _ => false)

/-! ## Concrete instances used in the theorems -/

/-- Options for `validatePath` with every default. -/
def defaultOpts : PathOptions := {}

/-- The source's `estimateSize` for string values: `value.length * 2`. -/
def estimateSizeString : String → Nat := fun s => 2 * s.length

/-- A string cache with `maxSize = 2` (spec scenario **Cache LRU order**). -/
def cache2 : LRUCache String := LRUCache.init String 2 300000 true

/-- State of `cache2` after `set a; set b; set c` at time 0 (the eviction loop
terminates on this run, so `getD` just unwraps it). -/
def cacheABC : LRUCache String :=
  (((((cache2.set estimateSizeString 0 "a" "va").getD cache2).set
      estimateSizeString 0 "b" "vb").getD cache2).set
      estimateSizeString 0 "c" "vc").getD cache2

/-- A rate limiter with `windowMs = 1000`, `maxRequests = 3`
(spec scenario **Rate window**). -/
def rate3 : RateLimiter := RateLimiter.init 1000 3 true

/-- The four results of consecutive `checkLimit "u"` calls at times
0, 1, 2, 3, threading the limiter state. -/
def rateCall1 : RateLimitResult × RateLimiter := rate3.checkLimit 0 "u"
def rateCall2 : RateLimitResult × RateLimiter := rateCall1.2.checkLimit 1 "u"
def rateCall3 : RateLimitResult × RateLimiter := rateCall2.2.checkLimit 2 "u"
def rateCall4 : RateLimitResult × RateLimiter := rateCall3.2.checkLimit 3 "u"

/-- A limiter holding an expired window for `"u"`: 3 requests counted,
window end 5, observed at `now = 10`. -/
def rateExpired : RateLimiter :=
  { store := [("u", ⟨3, 5, 0⟩)], windowMs := 1000, maxRequests := 3, enabled := true }

/-- A configuration whose allow-list admits `/etc`, used to reach the
blocked-directory check. -/
def blockedDirCfg : SecConfig :=
  { cwd := "/workspace"
    allowedDirectories := [".", "/etc"]
    blockedDirectories := ["/etc", "/usr", "/bin", "/sbin", "/boot", "/sys", "/proc", "/dev", "/root"] }

/-- A 1001-character command argument (over the 1000 limit). -/
def longArg : String := ⟨List.replicate 1001 'a'⟩

/-- The `set a; set b; set c` session as an operation list. -/
def opsABC : List (CacheOp String) :=
  [CacheOp.setOp 0 "a" "va", CacheOp.setOp 0 "b" "vb", CacheOp.setOp 0 "c" "vc"]

/-- Scheduler trace realizing the admission race: with one slot, task 0
runs, task 1 queues; task 0 finishes and wakes task 1; before task 1's
continuation runs, a fresh caller 2 takes the free slot; then task 1
resumes and increments `current` without re-checking.  Every step is an
uninterrupted synchronous section of the source, in an order the
microtask queue can produce. -/
def bargeTrace : List CEvent :=
  [CEvent.call 0, CEvent.call 1, CEvent.finish 0 true, CEvent.call 2, CEvent.resume 1]

/-- Three queued waiters on a single-slot category, admitted as slots
free up (spec scenario **Concurrency fairness**). -/
def fifoTrace : List CEvent :=
  [CEvent.call 0, CEvent.call 1, CEvent.call 2, CEvent.call 3,
   CEvent.finish 0 true, CEvent.resume 1, CEvent.finish 1 false,
   CEvent.resume 2, CEvent.finish 2 true, CEvent.resume 3]

/-- Any input matching a dangerous pattern is rejected by `validatePath` (the first three pipeline stages alone decide this). -/
theorem dangerous_rejects (cfg : SecConfig) (opts : PathOptions) (input : String)
    (h : dangerousHit input = true) : isErr (validatePath cfg opts input) = true := by
  unfold validatePath
  by_cases h1 : input = ""
  · simp [h1, isErr]
  · by_cases h2 : input.length > opts.maxLength
    · simp [h1, h2, isErr]
    · simp [h1, h2, h, isErr]

/-- Any input whose normalization still contains a traversal segment is rejected by `validatePath`. -/
theorem postnorm_rejects (cfg : SecConfig) (opts : PathOptions) (input : String)
    (h : strContains (posixNormalize input) ".." = true) :
    isErr (validatePath cfg opts input) = true := by
  unfold validatePath
  unfold posixNormalize at h
  by_cases h1 : input = ""
  · simp [h1, isErr]
  · by_cases h2 : input.length > opts.maxLength
    · simp [h1, h2, isErr]
    · by_cases h3 : dangerousHit input
      · simp [h1, h2, h3, isErr]
      · simp [h1, h2, h3, h, isErr]

/-- Reading back the key just written with `mapSet` yields the written entry. -/
theorem mapGet_mapSet_self {A : Type} (k : String) (v : A) (l : List (String × A)) :
    mapGet k (mapSet k v l) = some v := by
  unfold mapSet
  by_cases h : l.any (fun p => p.1 == k)
  · simp only [h, if_true]
    induction l with
    | nil => simp at h
    | cons p rest ih =>
      by_cases hp : p.1 == k
      · simp [mapGet, List.find?, hp]
      · have hp2 : (p.1 == k) = false := by simpa using hp
        simp only [List.any_cons, hp2, Bool.false_or] at h
        simp only [List.map_cons, hp2, Bool.false_eq_true, if_false]
        simp only [mapGet, List.find?, hp2]
        exact ih h
  · simp only [h, if_false]
    induction l with
    | nil => simp [mapGet, List.find?]
    | cons p rest ih =>
      simp only [List.any_cons, Bool.or_eq_true, not_or] at h
      simp only [List.cons_append, mapGet, List.find?]
      rcases h with ⟨hp, hrest⟩
      simp only [Bool.not_eq_true] at hp
      simp only [hp]
      exact ih (by simp [hrest])

/-- C1: every input string containing a path-traversal sequence `..` — in the raw input or in its normalized form — is rejected by `SecurityValidator.validatePath` (for any options and directory configuration); in particular `validatePath "../../etc/passwd"` rejects via the dangerous-pattern scan whose first rule is the traversal pattern, and `validatePath "a/b/../c"` rejects as well. -/
theorem validatePath_rejects_traversal :
    (∀ (cfg : SecConfig) (opts : PathOptions) (input : String),
       (strContains input ".." = true ∨ strContains (posixNormalize input) ".." = true) →
       isErr (validatePath cfg opts input) = true) ∧
    validatePath defaultCfg defaultOpts "../../etc/passwd" =
      Except.error "Path contains dangerous patterns" ∧
    strContains "../../etc/passwd" ".." = true ∧
    isErr (validatePath defaultCfg defaultOpts "a/b/../c") = true := by
  refine ⟨?_, by rfl, by decide, by rfl⟩
  intro cfg opts input h
  rcases h with h | h
  · exact dangerous_rejects cfg opts input (by simp [dangerousHit, h])
  · exact postnorm_rejects cfg opts input h

/-- C1 witness: the general rejection theorem applied at the concrete input `"x/../y"`. -/
theorem validatePath_rejects_traversal_witness :
    isErr (validatePath defaultCfg defaultOpts "x/../y") = true :=
  validatePath_rejects_traversal.1 defaultCfg defaultOpts "x/../y" (Or.inl (by decide))

/-- C4: inside an active window whose stored count has reached `maxRequests`, `checkLimit` returns `allowed = false` with `retryAfter = ceil((windowEnd - now)/1000)` and leaves the limiter state (hence the stored count) unchanged; concretely, with `windowMs = 1000` and `maxRequests = 3`, four consecutive calls yield `allowed = [true, true, true, false]`, the fourth with `retryAfter = 1 > 0` and the stored count still 3. -/
theorem rate_limit_reject_at_max :
    (∀ (rl : RateLimiter) (now : Nat) (id : String) (entry : RateLimitEntry),
      rl.enabled = true →
      mapGet id rl.store = some entry →
      now < entry.resetTime →
      rl.maxRequests ≤ entry.count →
      rl.checkLimit now id =
        ({ allowed := false, remaining := 0, resetTime := entry.resetTime,
           retryAfter := some ((entry.resetTime - now + 999) / 1000) }, rl)) ∧
    (rateCall1.1.allowed, rateCall2.1.allowed, rateCall3.1.allowed, rateCall4.1.allowed)
        = (true, true, true, false) ∧
    rateCall4.1.retryAfter = some 1 ∧
    (mapGet "u" rateCall4.2.store).map RateLimitEntry.count = some 3 := by
  refine ⟨?_, by decide, by decide, by decide⟩
  intro rl now id entry hen hget hlt hcnt
  unfold RateLimiter.checkLimit
  rw [hen, hget]
  simp [Nat.not_le.mpr hlt, hcnt, ceilDiv1000]

/-- C4 witness: the general rejection clause applied to the limiter state after three accepted calls. -/
theorem rate_limit_reject_at_max_witness :
    rateCall3.2.checkLimit 3 "u" =
      ({ allowed := false, remaining := 0, resetTime := 1000, retryAfter := some 1 },
       rateCall3.2) :=
  rate_limit_reject_at_max.1 rateCall3.2 3 "u" ⟨3, 1000, 0⟩ (by decide) (by decide) (by decide) (by decide)

/-- C8 counterexample: with a stored window `{count 3, windowEnd 5}` observed at `now = 10 ≥ 5` on the read path, `getStatus` leaves the store unchanged — the stored window still holds `{count 3, windowEnd 5}` and is not reset to `{count 1, windowStart 10, windowEnd 1010}` as the claim requires. -/
theorem getStatus_reset_counterexample :
    (5 : Nat) ≤ 10 ∧
    (rateExpired.getStatus 10 "u").2 = rateExpired ∧
    mapGet "u" (rateExpired.getStatus 10 "u").2.store = some ⟨3, 5, 0⟩ ∧
    ¬ mapGet "u" (rateExpired.getStatus 10 "u").2.store = some ⟨1, 1010, 10⟩ := by decide

/-- C8 amended: when `now ≥ windowEnd` is observed on the write path, `checkLimit` resets the stored window to `{count 1, windowStart now, windowEnd now + windowMs}`; the read path `getStatus` applies the same expiry logic to its returned result only and leaves the store unmodified. -/
theorem window_reset_amended :
    ∀ (rl : RateLimiter) (now : Nat) (id : String) (entry : RateLimitEntry),
      rl.enabled = true →
      mapGet id rl.store = some entry →
      entry.resetTime ≤ now →
      mapGet id (rl.checkLimit now id).2.store = some ⟨1, now + rl.windowMs, now⟩ ∧
      (rl.checkLimit now id).1 =
        { allowed := true, remaining := rl.maxRequests - 1, resetTime := now + rl.windowMs } ∧
      (rl.getStatus now id).2 = rl ∧
      (rl.getStatus now id).1 =
        { allowed := true, remaining := rl.maxRequests, resetTime := now + rl.windowMs } := by
  intro rl now id entry hen hget hge
  unfold RateLimiter.checkLimit RateLimiter.getStatus
  rw [hen, hget]
  simp [hge, mapGet_mapSet_self]

/-- C8 witness: the amended theorem applied to a concrete expired window. -/
theorem window_reset_amended_witness :
    mapGet "u" (rateExpired.checkLimit 10 "u").2.store = some ⟨1, 1010, 10⟩ ∧
    (rateExpired.checkLimit 10 "u").1 =
      { allowed := true, remaining := 2, resetTime := 1010 } ∧
    (rateExpired.getStatus 10 "u").2 = rateExpired ∧
    (rateExpired.getStatus 10 "u").1 =
      { allowed := true, remaining := 3, resetTime := 1010 } :=
  window_reset_amended rateExpired 10 "u" ⟨3, 5, 0⟩ (by decide) (by decide) (by decide)

/-- C9 counterexample: two different validation rules share one generic rejection reason.  `"a..b"` violates only the traversal rule and `"/etc/passwd"` only the sensitive-prefix rule, yet both are rejected with the same message, and likewise a shell-metacharacter violation and a redirection violation both yield the same command message. -/
theorem distinct_reasons_counterexample :
    strContains "a..b" ".." = true ∧
    ciContains "a..b" "/etc/passwd" = false ∧
    strContains "/etc/passwd" ".." = false ∧
    ciContains "/etc/passwd" "/etc/passwd" = true ∧
    validatePath defaultCfg defaultOpts "a..b" =
      Except.error "Path contains dangerous patterns" ∧
    validatePath defaultCfg defaultOpts "/etc/passwd" =
      Except.error "Path contains dangerous patterns" ∧
    "echo a;b".data.any isShellMeta = true ∧
    redirHit "echo a;b".data = false ∧
    "echo > /x".data.any isShellMeta = false ∧
    redirHit "echo > /x".data = true ∧
    validateCommand "echo" ["a;b"] =
      Except.error "Command contains potentially dangerous patterns" ∧
    validateCommand "echo" [">", "/x"] =
      Except.error "Command contains potentially dangerous patterns" :=
  ⟨by decide, by decide, by decide, by decide, by rfl, by rfl,
   by decide, by decide, by decide, by decide, by rfl, by rfl⟩

set_option maxRecDepth 8192 in
/-- C9 amended: distinct pipeline stages (non-empty, length, dangerous pattern, absolute-path policy, blocked extension, allowed-extension list, allowed directories, blocked directories; invalid command, dangerous base command, injection patterns, argument length) raise distinct named reasons, but all twelve dangerous-pattern rules share the single message `Path contains dangerous patterns`, and all six shell-injection patterns share `Command contains potentially dangerous patterns`. -/
theorem rejection_reasons_amended :
    validatePath defaultCfg defaultOpts "" =
      Except.error "Invalid path: must be a non-empty string" ∧
    validatePath defaultCfg { defaultOpts with maxLength := 2 } "abc" =
      Except.error "Path too long: 3 characters (max: 2)" ∧
    validatePath defaultCfg defaultOpts "a..b" =
      Except.error "Path contains dangerous patterns" ∧
    validatePath defaultCfg defaultOpts "/abc" =
      Except.error "Absolute paths not allowed" ∧
    validatePath defaultCfg defaultOpts "malware.exe" =
      Except.error "File extension not allowed: .exe" ∧
    validatePath defaultCfg { defaultOpts with allowedExtensions := some [".md"] } "notes.txt" =
      Except.error "File extension not in allowed list: .txt" ∧
    validatePath { defaultCfg with allowedDirectories := ["./data"] } defaultOpts "notes.txt" =
      Except.error "Path not within allowed directories" ∧
    validatePath blockedDirCfg { defaultOpts with allowAbsolute := true } "/etc/hosts" =
      Except.error "Path within blocked directory" ∧
    validatePath defaultCfg defaultOpts "notes.txt" = Except.ok "/workspace/notes.txt" ∧
    validateCommand "rm" ["-rf", "/"] = Except.error "Dangerous command not allowed: rm" ∧
    validateCommand "echo" ["a;b"] =
      Except.error "Command contains potentially dangerous patterns" ∧
    validateCommand "" [] = Except.error "Invalid command: must be a non-empty string" ∧
    validateCommand "echo" [longArg] = Except.error "Command argument too long" ∧
    validatePath defaultCfg defaultOpts "/etc/passwd" =
      Except.error "Path contains dangerous patterns" ∧
    validatePath defaultCfg defaultOpts "a\x01b" =
      Except.error "Path contains dangerous patterns" ∧
    validateCommand "echo" [">", "/x"] =
      Except.error "Command contains potentially dangerous patterns" :=
  ⟨by rfl, by rfl, by rfl, by rfl, by rfl, by rfl, by rfl, by rfl,
   by rfl, by rfl, by rfl, by rfl, by rfl, by rfl, by rfl, by rfl⟩
/-- Mapping first components commutes with deleting one key. -/
theorem keys_filter {T : Type} (l : List (String × CacheEntry T)) (k : String) :
    (l.filter (fun p => p.1 ≠ k)).map Prod.fst = (l.map Prod.fst).filter (fun x => x ≠ k) := by
  induction l with
  | nil => rfl
  | cons p rest ih =>
    cases hd : decide (p.1 ≠ k) <;> simp_all [List.filter_cons]

/-- A successful map lookup exhibits an entry with the sought key. -/
theorem mapGet_some_mem {A : Type} {k : String} {l : List (String × A)} {e : A}
    (h : mapGet k l = some e) : ∃ p ∈ l, (p.1 == k) = true := by
  unfold mapGet at h
  cases hf : l.find? (fun p => p.1 == k) with
  | none => rw [hf] at h; cases h
  | some p =>
    exact ⟨p, List.mem_of_find?_eq_some hf,
      List.find?_some (p := fun (q : String × A) => q.1 == k) hf⟩

/-- Deleting an existing key strictly shrinks the map. -/
theorem mapDelete_length_lt {A : Type} {k : String} {l : List (String × A)}
    (h : ∃ p ∈ l, (p.1 == k) = true) : (mapDelete k l).length < l.length := by
  unfold mapDelete
  rcases h with ⟨p, hmem, hpk⟩
  refine List.length_filter_lt_length_iff_exists.mpr ⟨p, hmem, ?_⟩
  simp_all

/-- When the eviction loop terminates, the resulting cache is strictly below its capacity. -/
theorem evictLoop_some_lt {T : Type} :
    ∀ (fuel : Nat) (c c' : LRUCache T), evictLoop fuel c = some c' →
      c'.entries.length < c'.maxSize := by
  intro fuel
  induction fuel with
  | zero =>
    intro c c' h
    unfold evictLoop at h
    split at h
    · cases h; assumption
    · rcases hent : c.entries with _ | ⟨⟨k0, e0⟩, rest⟩ <;> rw [hent] at h <;> cases h
  | succ f ih =>
    intro c c' h
    unfold evictLoop at h
    split at h
    · cases h; assumption
    · rcases hent : c.entries with _ | ⟨⟨k0, e0⟩, rest⟩ <;> rw [hent] at h
      · cases h
      · by_cases hk : k0 = ""
        · simp only [hk, if_true] at h; cases h
        · simp only [hk, if_false] at h
          exact ih _ c' h

/-- A completed `set` keeps the cache within its capacity bound. -/
theorem set_preserves_bound {T : Type} (est : T → Nat) (c c' : LRUCache T)
    (now : Nat) (k : String) (v : T)
    (hb : c.entries.length ≤ c.maxSize)
    (h : c.set est now k v = some c') : c'.entries.length ≤ c'.maxSize := by
  unfold LRUCache.set at h
  by_cases he : c.enabled
  · simp only [he, Bool.not_true, Bool.false_eq_true, if_false] at h
    split at h
    · cases h
    · next c2 hev =>
      cases h
      have hlt := evictLoop_some_lt _ _ _ hev
      simpa using hlt
  · simp only [he] at h
    simp at h
    cases h
    exact hb

/-- A `get` keeps the cache within its capacity bound. -/
theorem get_preserves_bound {T : Type} (c : LRUCache T) (now : Nat) (k : String)
    (hb : c.entries.length ≤ c.maxSize) :
    (c.get now k).2.entries.length ≤ (c.get now k).2.maxSize := by
  unfold LRUCache.get
  by_cases he : c.enabled
  · simp only [he, Bool.not_true, Bool.false_eq_true, if_false]
    cases hg : mapGet k c.entries with
    | none => simpa using hb
    | some entry =>
      by_cases ht : now - entry.timestamp > c.ttl
      · simp only [ht, if_true]
        calc (mapDelete k c.entries).length ≤ c.entries.length :=
              List.length_filter_le _ _
          _ ≤ c.maxSize := hb
      · simp only [ht, if_false]
        have hlt := mapDelete_length_lt (mapGet_some_mem hg)
        simp only [List.length_append, List.length_cons, List.length_nil]
        omega
  · simp [he, hb]

/-- A `has` keeps the cache within its capacity bound. -/
theorem has_preserves_bound {T : Type} (c : LRUCache T) (now : Nat) (k : String)
    (hb : c.entries.length ≤ c.maxSize) :
    (c.has now k).2.entries.length ≤ (c.has now k).2.maxSize := by
  unfold LRUCache.has
  by_cases he : c.enabled
  · simp only [he, Bool.not_true, Bool.false_eq_true, if_false]
    cases hg : mapGet k c.entries with
    | none => simpa using hb
    | some entry =>
      by_cases ht : now - entry.timestamp > c.ttl
      · simp only [ht, if_true]
        calc (mapDelete k c.entries).length ≤ c.entries.length :=
              List.length_filter_le _ _
          _ ≤ c.maxSize := hb
      · simpa [ht] using hb
  · simp [he, hb]

/-- A `delete` keeps the cache within its capacity bound. -/
theorem del_preserves_bound {T : Type} (c : LRUCache T) (k : String)
    (hb : c.entries.length ≤ c.maxSize) :
    (c.del k).2.entries.length ≤ (c.del k).2.maxSize := by
  unfold LRUCache.del
  by_cases he : c.enabled
  · simp only [he, Bool.not_true, Bool.false_eq_true, if_false]
    calc (mapDelete k c.entries).length ≤ c.entries.length :=
          List.length_filter_le _ _
      _ ≤ c.maxSize := hb
  · simp [he, hb]

/-- Any completed operation sequence preserves the capacity bound. -/
theorem runCacheOps_bound {T : Type} (est : T → Nat) :
    ∀ (ops : List (CacheOp T)) (c0 c : LRUCache T),
      c0.entries.length ≤ c0.maxSize →
      runCacheOps est c0 ops = some c →
      c.entries.length ≤ c.maxSize := by
  intro ops
  induction ops with
  | nil =>
    intro c0 c hb h
    cases h
    exact hb
  | cons op rest ih =>
    intro c0 c hb h
    unfold runCacheOps at h
    cases hop : runCacheOp est c0 op with
    | none => rw [hop] at h; cases h
    | some c1 =>
      rw [hop] at h
      refine ih c1 c ?_ h
      cases op with
      | setOp now key value => exact set_preserves_bound est c0 c1 now key value hb hop
      | getOp now key =>
        have := get_preserves_bound c0 now key hb
        unfold runCacheOp at hop
        cases hop
        exact this
      | hasOp now key =>
        have := has_preserves_bound c0 now key hb
        unfold runCacheOp at hop
        cases hop
        exact this
      | delOp key =>
        have := del_preserves_bound c0 key hb
        unfold runCacheOp at hop
        cases hop
        exact this

/-- C2: for every sequence of cache operations (`set`, `get`, `has`, `delete`, arbitrary keys and times) run from a fresh cache, after each completed operation the number of stored entries satisfies `size ≤ maxSize`; quantifying over all sequences covers every intermediate state. -/
theorem cache_size_le_maxSize :
    ∀ (T : Type) (est : T → Nat) (maxSize ttl : Nat) (enabled : Bool)
      (ops : List (CacheOp T)) (c : LRUCache T),
      runCacheOps est (LRUCache.init T maxSize ttl enabled) ops = some c →
      c.entries.length ≤ c.maxSize := by
  intro T est maxSize ttl enabled ops c h
  exact runCacheOps_bound est ops _ c (by simp [LRUCache.init]) h

/-- C2 witness: the bound instantiated on the concrete three-`set` session with `maxSize = 2`. -/
theorem cache_size_le_maxSize_witness :
    cacheABC.entries.length ≤ cacheABC.maxSize :=
  cache_size_le_maxSize String estimateSizeString 2 300000 true opsABC cacheABC (by decide)

/-- A cache hit moves the touched key to the most-recently-used (last) position. -/
theorem get_hit_keys {T : Type} (c c' : LRUCache T) (now : Nat) (k : String) (v : T)
    (h : c.get now k = (some v, c')) :
    cacheKeys c' = (cacheKeys c).filter (fun x => x ≠ k) ++ [k] := by
  unfold LRUCache.get at h
  by_cases he : c.enabled
  · simp only [he, Bool.not_true, Bool.false_eq_true, if_false] at h
    cases hg : mapGet k c.entries with
    | none => rw [hg] at h; cases h
    | some entry =>
      rw [hg] at h
      by_cases ht : now - entry.timestamp > c.ttl
      · simp only [ht, if_true] at h; cases h
      · simp only [ht, if_false] at h
        cases h
        unfold cacheKeys mapDelete
        simp only [List.map_append, List.map_cons, List.map_nil]
        rw [keys_filter]
  · simp [he] at h

/-- A completed `set` leaves the written key in the most-recently-used (last) position. -/
theorem set_tail_key {T : Type} (est : T → Nat) (c c' : LRUCache T)
    (now : Nat) (k : String) (v : T)
    (he : c.enabled = true) (h : c.set est now k v = some c') :
    (cacheKeys c').getLast? = some k := by
  unfold LRUCache.set at h
  simp only [he, Bool.not_true, Bool.false_eq_true, if_false] at h
  split at h
  · cases h
  · next c2 hev =>
    cases h
    unfold cacheKeys
    simp only [List.map_append, List.map_cons, List.map_nil]
    exact List.getLast?_concat _

/-- C7: `LRUCache.set` evicts in least-recently-used order — `evictLRU` removes the first (least recently used) entry, a hit via `get` moves the touched key to the most-recently-used tail, and a completed `set` puts its key at the tail; with `maxSize = 2`, after `set a; set b; set c` the key `a` is a miss while `b` and `c` are hits. -/
theorem lru_eviction_order :
    (∀ (T : Type) (c : LRUCache T) (k : String) (e : CacheEntry T)
       (rest : List (String × CacheEntry T)),
       c.entries = (k, e) :: rest → k ≠ "" → c.evictLRU.entries = rest) ∧
    (∀ (T : Type) (c c' : LRUCache T) (now : Nat) (k : String) (v : T),
       c.get now k = (some v, c') →
       cacheKeys c' = (cacheKeys c).filter (fun x => x ≠ k) ++ [k]) ∧
    (∀ (T : Type) (est : T → Nat) (c c' : LRUCache T) (now : Nat) (k : String) (v : T),
       c.enabled = true → c.set est now k v = some c' → (cacheKeys c').getLast? = some k) ∧
    cacheKeys cacheABC = ["b", "c"] ∧
    (cacheABC.get 0 "a").1 = none ∧
    (cacheABC.get 0 "b").1 = some "vb" ∧
    (cacheABC.get 0 "c").1 = some "vc" := by
  refine ⟨?_, ?_, ?_, by decide, by decide, by decide, by decide⟩
  · intro T c k e rest hent hk
    unfold LRUCache.evictLRU
    rw [hent]
    simp [hk]
  · intro T c c' now k v h
    exact get_hit_keys c c' now k v h
  · intro T est c c' now k v he h
    exact set_tail_key est c c' now k v he h

/-- C7 witness: the `get`-hit recency clause applied to the concrete cache. -/
theorem lru_eviction_order_witness :
    cacheKeys ((cacheABC.get 0 "b").2) =
      (cacheKeys cacheABC).filter (fun x => x ≠ "b") ++ ["b"] :=
  lru_eviction_order.2.1 String cacheABC ((cacheABC.get 0 "b").2) 0 "b" "vb" (by decide)

/-- C10: if the key is already present and the cache is full (`size = maxSize`), `set` completes, replaces that key's entry (re-inserted most recently used) and evicts nothing: every other key present before is still present after. -/
theorem set_existing_key_no_evict :
    ∀ (T : Type) (est : T → Nat) (c : LRUCache T) (now : Nat) (k : String) (v : T),
      c.enabled = true →
      c.entries.any (fun p => p.1 == k) = true →
      c.entries.length = c.maxSize →
      ∃ c', c.set est now k v = some c' ∧
        cacheKeys c' = (cacheKeys c).filter (fun x => x ≠ k) ++ [k] ∧
        ∀ k2, k2 ≠ k → k2 ∈ cacheKeys c → k2 ∈ cacheKeys c' := by
  intro T est c now k v he hany hfull
  have hmem : ∃ p ∈ c.entries, (p.1 == k) = true := by
    simpa using hany
  have hlt : (mapDelete k c.entries).length < c.maxSize := by
    rw [← hfull]
    exact mapDelete_length_lt hmem
  have hev : evictLoop (mapDelete k c.entries).length
      { c with entries := mapDelete k c.entries } = some { c with entries := mapDelete k c.entries } := by
    unfold evictLoop
    simp [hlt]
  refine ⟨{ c with entries := mapDelete k c.entries ++ [(k, ⟨v, now, 1, now, est v⟩)] },
    ?_, ?_, ?_⟩
  · unfold LRUCache.set
    rw [he] at hev
    simp only [he, Bool.not_true, Bool.false_eq_true, if_false, hany, if_true]
    rw [hev]
  · unfold cacheKeys mapDelete
    simp only [List.map_append, List.map_cons, List.map_nil]
    rw [keys_filter]
  · intro k2 hk2 hkin
    unfold cacheKeys mapDelete
    simp only [List.map_append, List.map_cons, List.map_nil]
    rw [keys_filter]
    simp only [List.mem_append, List.mem_filter]
    left
    exact ⟨hkin, by simpa using hk2⟩

/-- C10 witness: the theorem applied to the full concrete cache, overwriting the resident key `b`. -/
theorem set_existing_key_no_evict_witness :
    ∃ c', cacheABC.set estimateSizeString 1 "b" "nb" = some c' ∧
      cacheKeys c' = (cacheKeys cacheABC).filter (fun x => x ≠ "b") ++ ["b"] ∧
      ∀ k2, k2 ≠ "b" → k2 ∈ cacheKeys cacheABC → k2 ∈ cacheKeys c' :=
  set_existing_key_no_evict String estimateSizeString cacheABC 1 "b" "nb" (by decide) (by decide) (by decide)


/-- Unfolding equation for `enqSeq`. -/
theorem enqSeq_cons (s : CLimiter) (e : CEvent) (es : List CEvent) :
    enqSeq s (e :: es) =
      match cstep s e with
      | none => []
      | some s2 => eventEnq s e ++ enqSeq s2 es := rfl

/-- Unfolding equation for `resumeSeq`. -/
theorem resumeSeq_cons (s : CLimiter) (e : CEvent) (es : List CEvent) :
    resumeSeq s (e :: es) =
      match cstep s e with
      | none => []
      | some s2 => eventRes e ++ resumeSeq s2 es := rfl

/-- Unfolding equation for `finishSeq`. -/
theorem finishSeq_cons (s : CLimiter) (e : CEvent) (es : List CEvent) :
    finishSeq s (e :: es) =
      match cstep s e with
      | none => []
      | some s2 => eventFin e ++ finishSeq s2 es := rfl

/-- FIFO accounting invariant: along any valid trace, the admissions so far followed by the still-pending woken and queued waiters equal the initial waiters followed by the enqueue sequence. -/
theorem runTrace_queue_order :
    ∀ (es : List CEvent) (s s' : CLimiter),
      runTrace s es = some s' →
      resumeSeq s es ++ (s'.woken ++ s'.queue) = s.woken ++ (s.queue ++ enqSeq s es) := by
  intro es
  induction es with
  | nil =>
    intro s s' h
    cases h
    simp [resumeSeq, enqSeq]
  | cons e rest ih =>
    intro s s' h
    unfold runTrace at h
    cases hstep : cstep s e with
    | none => rw [hstep] at h; cases h
    | some s2 =>
      rw [hstep] at h
      have ihh := ih s2 s' h
      rw [resumeSeq_cons, enqSeq_cons, hstep]
      dsimp only
      cases e with
      | call id =>
        simp only [cstep] at hstep
        split at hstep
        · cases hstep
        · by_cases hq : s.current ≥ s.maxConcurrent
          · rw [if_pos hq] at hstep
            cases hstep
            dsimp only [eventEnq, eventRes] at ihh ⊢
            rw [if_pos hq]
            simp only [List.nil_append]
            rw [ihh]
            simp [List.append_assoc]
          · rw [if_neg hq] at hstep
            cases hstep
            dsimp only [eventEnq, eventRes] at ihh ⊢
            rw [if_neg hq]
            simpa using ihh
      | resume id =>
        simp only [cstep] at hstep
        cases hw : s.woken with
        | nil => rw [hw] at hstep; cases hstep
        | cons w ws =>
          rw [hw] at hstep
          dsimp only at hstep
          by_cases hid : w = id
          · rw [if_pos hid] at hstep
            cases hstep
            subst hid
            dsimp only [eventEnq, eventRes] at ihh ⊢
            simp only [List.cons_append, List.nil_append, List.append_nil]
            rw [ihh]
          · rw [if_neg hid] at hstep; cases hstep
      | finish id ok =>
        simp only [cstep] at hstep
        split at hstep
        · cases hq : s.queue with
          | nil =>
            rw [hq] at hstep
            cases hstep
            dsimp only [eventEnq, eventRes] at ihh ⊢
            simpa using ihh
          | cons q qs =>
            rw [hq] at hstep
            cases hstep
            dsimp only [eventEnq, eventRes] at ihh ⊢
            simpa [List.append_assoc] using ihh
        · cases hstep

/-- Characterization of a `call` step: the identifier is fresh and the caller either enqueues (limiter full) or is admitted immediately. -/
theorem cstep_call_cases (s : CLimiter) (id : Nat) (s2 : CLimiter)
    (h : cstep s (CEvent.call id) = some s2) :
    (id ∉ s.queue ∧ id ∉ s.woken ∧ id ∉ s.running ∧ id ∉ s.finished) ∧
    ((s.current ≥ s.maxConcurrent ∧ s2 = { s with queue := s.queue ++ [id] }) ∨
     (¬ s.current ≥ s.maxConcurrent ∧
       s2 = { s with current := s.current + 1, running := s.running ++ [id] })) := by
  simp only [cstep] at h
  split at h
  · cases h
  · next hguard =>
    simp only [Bool.or_eq_true, not_or] at hguard
    refine ⟨⟨by simpa using hguard.1.1.1, by simpa using hguard.1.1.2,
      by simpa using hguard.1.2, by simpa using hguard.2⟩, ?_⟩
    by_cases hq : s.current ≥ s.maxConcurrent
    · rw [if_pos hq] at h
      cases h
      exact Or.inl ⟨hq, rfl⟩
    · rw [if_neg hq] at h
      cases h
      exact Or.inr ⟨hq, rfl⟩

/-- Characterization of a `resume` step: the resumed identifier is the head of the woken list and re-increments `current` without re-checking the limit. -/
theorem cstep_resume_cases (s : CLimiter) (id : Nat) (s2 : CLimiter)
    (h : cstep s (CEvent.resume id) = some s2) :
    ∃ ws, s.woken = id :: ws ∧
      s2 = { s with woken := ws, current := s.current + 1,
                    running := s.running ++ [id] } := by
  simp only [cstep] at h
  cases hw : s.woken with
  | nil => rw [hw] at h; cases h
  | cons w ws =>
    rw [hw] at h
    dsimp only at h
    by_cases hid : w = id
    · rw [if_pos hid] at h
      cases h
      subst hid
      exact ⟨ws, rfl, rfl⟩
    · rw [if_neg hid] at h; cases h

/-- Characterization of a `finish` step: the identifier was running; `current` is decremented, the task is recorded finished, and the queue head (if any) is woken. -/
theorem cstep_finish_cases (s : CLimiter) (id : Nat) (ok : Bool) (s2 : CLimiter)
    (h : cstep s (CEvent.finish id ok) = some s2) :
    id ∈ s.running ∧
    ((s.queue = [] ∧
      s2 = { s with running := s.running.erase id,
                    finished := s.finished ++ [id],
                    current := s.current - 1 }) ∨
     (∃ q qs, s.queue = q :: qs ∧
      s2 = { s with running := s.running.erase id,
                    finished := s.finished ++ [id],
                    current := s.current - 1,
                    queue := qs, woken := s.woken ++ [q] })) := by
  simp only [cstep] at h
  split at h
  · next hrun =>
    refine ⟨by simpa using hrun, ?_⟩
    cases hq : s.queue with
    | nil =>
      rw [hq] at h
      cases h
      exact Or.inl ⟨rfl, rfl⟩
    | cons q qs =>
      rw [hq] at h
      cases h
      exact Or.inr ⟨q, qs, rfl, rfl⟩
  · cases h

/-- A property preserved by every step is preserved by every trace. -/
theorem runTrace_pres (P : CLimiter → Prop)
    (hstep : ∀ s e s2, cstep s e = some s2 → P s → P s2) :
    ∀ (es : List CEvent) (s s' : CLimiter),
      runTrace s es = some s' → P s → P s' := by
  intro es
  induction es with
  | nil => intro s s' h hp; cases h; exact hp
  | cons e rest ih =>
    intro s s' h hp
    unfold runTrace at h
    cases hst : cstep s e with
    | none => rw [hst] at h; cases h
    | some s2 =>
      rw [hst] at h
      exact ih s2 s' h (hstep s e s2 hst hp)

/-- No step changes `maxConcurrent`. -/
theorem cstep_max (s : CLimiter) (e : CEvent) (s2 : CLimiter)
    (h : cstep s e = some s2) : s2.maxConcurrent = s.maxConcurrent := by
  cases e with
  | call id =>
    rcases (cstep_call_cases s id s2 h).2 with ⟨_, h2⟩ | ⟨_, h2⟩ <;> rw [h2]
  | resume id =>
    rcases cstep_resume_cases s id s2 h with ⟨ws, _, h2⟩
    rw [h2]
  | finish id ok =>
    rcases (cstep_finish_cases s id ok s2 h).2 with ⟨_, h2⟩ | ⟨q, qs, _, h2⟩ <;> rw [h2]

/-- Every step preserves `current = running.length`. -/
theorem cstep_cur_run (s : CLimiter) (e : CEvent) (s2 : CLimiter)
    (h : cstep s e = some s2) (hp : s.current = s.running.length) :
    s2.current = s2.running.length := by
  cases e with
  | call id =>
    rcases (cstep_call_cases s id s2 h).2 with ⟨_, h2⟩ | ⟨_, h2⟩ <;> rw [h2] <;> simp [hp]
  | resume id =>
    rcases cstep_resume_cases s id s2 h with ⟨ws, _, h2⟩
    rw [h2]
    simp [hp]
  | finish id ok =>
    obtain ⟨hmem, hcase⟩ := cstep_finish_cases s id ok s2 h
    have hlen : (s.running.erase id).length = s.running.length - 1 :=
      List.length_erase_of_mem hmem
    rcases hcase with ⟨_, h2⟩ | ⟨q, qs, _, h2⟩ <;> rw [h2] <;> simp [hp, hlen]

/-- Every step preserves distinctness of the tracked identifiers. -/
theorem cstep_nodup (s : CLimiter) (e : CEvent) (s2 : CLimiter)
    (h : cstep s e = some s2) (hnd : (allIds s).Nodup) : (allIds s2).Nodup := by
  rw [List.nodup_iff_count_le_one] at hnd ⊢
  intro a
  have ha := hnd a
  simp only [allIds, List.count_append] at ha ⊢
  cases e with
  | call id =>
    obtain ⟨⟨hq, hw, hr, hf⟩, hcase⟩ := cstep_call_cases s id s2 h
    by_cases hai : a = id
    · subst hai
      have c1 : List.count a s.queue = 0 := List.count_eq_zero.mpr hq
      have c2 : List.count a s.woken = 0 := List.count_eq_zero.mpr hw
      have c3 : List.count a s.running = 0 := List.count_eq_zero.mpr hr
      have c4 : List.count a s.finished = 0 := List.count_eq_zero.mpr hf
      rcases hcase with ⟨_, h2⟩ | ⟨_, h2⟩ <;> subst h2 <;>
        simp [List.count_append, List.count_singleton, c1, c2, c3, c4]
    · have hs : List.count a [id] = 0 := by
        have hne2 : ¬ id = a := fun hcontra => hai hcontra.symm
        simp [List.count_singleton, hne2]
      rcases hcase with ⟨_, h2⟩ | ⟨_, h2⟩ <;> subst h2 <;>
        simp only [List.count_append, hs] <;> omega
  | resume id =>
    obtain ⟨ws, hw, h2⟩ := cstep_resume_cases s id s2 h
    subst h2
    rw [hw] at ha
    simp only [List.count_cons, List.count_append, List.count_singleton,
      List.count_nil] at ha ⊢
    omega
  | finish id ok =>
    obtain ⟨hmem, hcase⟩ := cstep_finish_cases s id ok s2 h
    have hcnt : 1 ≤ List.count id s.running := List.count_pos_iff.mpr hmem
    rcases hcase with ⟨hqnil, h2⟩ | ⟨q, qs, hq, h2⟩
    · subst h2
      by_cases hai : id = a
      · subst hai
        have herase : List.count id (s.running.erase id) = List.count id s.running - 1 := by
          simpa using List.count_erase id id s.running
        simp only [List.count_append, List.count_nil, List.count_singleton, herase,
          beq_self_eq_true, if_true] at ha ⊢
        omega
      · have hne : (id == a) = false := by simpa using hai
        have herase : List.count a (s.running.erase id) = List.count a s.running := by
          have hce := List.count_erase a id s.running
          simpa [hne] using hce
        simp only [List.count_append, List.count_nil, List.count_singleton, herase,
          hne, Bool.false_eq_true, if_false] at ha ⊢
        omega
    · subst h2
      rw [hq] at ha
      by_cases hai : id = a
      · subst hai
        have herase : List.count id (s.running.erase id) = List.count id s.running - 1 := by
          simpa using List.count_erase id id s.running
        simp only [List.count_append, List.count_cons, List.count_nil, List.count_singleton,
          herase, beq_self_eq_true, if_true] at ha ⊢
        omega
      · have hne : (id == a) = false := by simpa using hai
        have herase : List.count a (s.running.erase id) = List.count a s.running := by
          have hce := List.count_erase a id s.running
          simpa [hne] using hce
        simp only [List.count_append, List.count_cons, List.count_nil, List.count_singleton,
          herase, hne, Bool.false_eq_true, if_false] at ha ⊢
        omega

/-- Along any trace from a duplicate-free state, the accumulated finished identifiers stay duplicate-free. -/
theorem finishSeq_nodup_aux :
    ∀ (es : List CEvent) (s s' : CLimiter),
      runTrace s es = some s' → (allIds s).Nodup →
      (s.finished ++ finishSeq s es).Nodup := by
  intro es
  induction es with
  | nil =>
    intro s s' h hnd
    simp only [finishSeq, List.append_nil]
    have hsub : s.finished.Sublist (allIds s) :=
      ((List.sublist_append_right s.running s.finished).trans
        (List.sublist_append_right s.woken _)).trans
        (List.sublist_append_right s.queue _)
    exact List.Nodup.sublist hsub hnd
  | cons e rest ih =>
    intro s s' h hnd
    unfold runTrace at h
    cases hst : cstep s e with
    | none => rw [hst] at h; cases h
    | some s2 =>
      rw [hst] at h
      have hnd2 := cstep_nodup s e s2 hst hnd
      have ihh := ih s2 s' h hnd2
      rw [finishSeq_cons, hst]
      dsimp only
      cases e with
      | call id =>
        dsimp only [eventFin]
        rcases (cstep_call_cases s id s2 hst).2 with ⟨_, h2⟩ | ⟨_, h2⟩ <;>
          subst h2 <;> simpa using ihh
      | resume id =>
        dsimp only [eventFin]
        obtain ⟨ws, hw, h2⟩ := cstep_resume_cases s id s2 hst
        subst h2
        simpa using ihh
      | finish id ok =>
        dsimp only [eventFin]
        rcases (cstep_finish_cases s id ok s2 hst).2 with ⟨_, h2⟩ | ⟨q, qs, _, h2⟩ <;>
          subst h2 <;> dsimp only at ihh <;>
          rw [List.append_assoc] at ihh <;> simpa using ihh

/-- Unfolding equation for `callsSafe`. -/
theorem callsSafe_cons (s : CLimiter) (e : CEvent) (es : List CEvent) :
    callsSafe s (e :: es) =
      ((match e with | CEvent.call _ => s.woken.isEmpty | _ => true) &&
       (match cstep s e with | none => true | some s2 => callsSafe s2 es)) := rfl

/-- When no call arrives while a woken waiter is pending, `current + pending ≤ maxConcurrent` is an inductive invariant. -/
theorem runTrace_safe_bound :
    ∀ (es : List CEvent) (s s' : CLimiter),
      runTrace s es = some s' → callsSafe s es = true →
      s.current + s.woken.length ≤ s.maxConcurrent →
      s.current = s.running.length →
      s'.current + s'.woken.length ≤ s'.maxConcurrent := by
  intro es
  induction es with
  | nil => intro s s' h _ hb _; cases h; exact hb
  | cons e rest ih =>
    intro s s' h hsafe hb hcr
    unfold runTrace at h
    cases hst : cstep s e with
    | none => rw [hst] at h; cases h
    | some s2 =>
      rw [hst] at h
      rw [callsSafe_cons, hst] at hsafe
      simp only [Bool.and_eq_true] at hsafe
      have hmax : s2.maxConcurrent = s.maxConcurrent := cstep_max s e s2 hst
      have hcr2 : s2.current = s2.running.length := cstep_cur_run s e s2 hst hcr
      refine ih s2 s' h hsafe.2 ?_ hcr2
      rw [hmax]
      cases e with
      | call id =>
        have hwempty : s.woken = [] := by
          have := hsafe.1
          simpa [List.isEmpty_iff] using this
        rcases (cstep_call_cases s id s2 hst).2 with ⟨hq, h2⟩ | ⟨hq, h2⟩ <;> subst h2 <;>
          simp [hwempty] at hb ⊢ <;> omega
      | resume id =>
        obtain ⟨ws, hw, h2⟩ := cstep_resume_cases s id s2 hst
        subst h2
        rw [hw] at hb
        simp only [List.length_cons] at hb
        simp only []
        omega
      | finish id ok =>
        obtain ⟨hmem, hcase⟩ := cstep_finish_cases s id ok s2 hst
        have hcur1 : 1 ≤ s.current := by
          rw [hcr]
          have : s.running ≠ [] := by intro hnil; rw [hnil] at hmem; cases hmem
          have := List.length_pos.mpr this
          omega
        rcases hcase with ⟨_, h2⟩ | ⟨q, qs, _, h2⟩ <;> subst h2 <;>
          simp only [List.length_append, List.length_cons, List.length_nil] <;> omega

/-- Each admission of a queued waiter is funded by a prior slot release: resumes never outnumber finishes plus initially pending wakes. -/
theorem runTrace_resume_le :
    ∀ (es : List CEvent) (s s' : CLimiter),
      runTrace s es = some s' →
      numResumes es + s'.woken.length ≤ numFinishes es + s.woken.length := by
  intro es
  induction es with
  | nil =>
    intro s s' h
    cases h
    simp [numResumes, numFinishes]
  | cons e rest ih =>
    intro s s' h
    unfold runTrace at h
    cases hst : cstep s e with
    | none => rw [hst] at h; cases h
    | some s2 =>
      rw [hst] at h
      have ihh := ih s2 s' h
      cases e with
      | call id =>
        simp only [numResumes, numFinishes, List.countP_cons] at ihh ⊢
        rcases (cstep_call_cases s id s2 hst).2 with ⟨_, h2⟩ | ⟨_, h2⟩ <;> subst h2 <;>
          simpa using ihh
      | resume id =>
        obtain ⟨ws, hw, h2⟩ := cstep_resume_cases s id s2 hst
        subst h2
        simp only [numResumes, numFinishes, List.countP_cons] at ihh ⊢
        rw [hw]
        simp only [List.length_cons]
        simp at ihh ⊢
        omega
      | finish id ok =>
        simp only [numResumes, numFinishes, List.countP_cons] at ihh ⊢
        rcases (cstep_finish_cases s id ok s2 hst).2 with ⟨_, h2⟩ | ⟨q, qs, _, h2⟩ <;>
          subst h2 <;> simp at ihh ⊢ <;> omega

/-- C3 counterexample: the five-step trace `bargeTrace` — realizable in the source's microtask semantics — drives a `maxConcurrent = 1` limiter to `current = 2` with two operations running, so `current ≤ maxConcurrent` does not hold of every reachable state. -/
theorem concurrency_bound_counterexample :
    (runTrace (CLimiter.start 1) bargeTrace).map
        (fun s => (s.current, s.maxConcurrent, s.running.length)) = some (2, 1, 2) ∧
    (runTrace (CLimiter.start 1) bargeTrace).map
        (fun s => decide (s.current ≤ s.maxConcurrent)) = some false := by
  refine ⟨by decide, by decide⟩

/-- C3 amended: `current ≤ maxConcurrent` holds in every state reachable by traces in which no new caller checks the limiter while a woken-but-not-yet-resumed waiter is pending; in any valid trace a queued caller is admitted only after a slot release (resumes never outnumber finishes); and of two back-to-back calls on a one-slot category the second is queued, not started. -/
theorem concurrency_bound_amended :
    (∀ (m : Nat) (es : List CEvent) (s : CLimiter),
       runTrace (CLimiter.start m) es = some s →
       callsSafe (CLimiter.start m) es = true →
       s.current ≤ s.maxConcurrent) ∧
    (∀ (es : List CEvent) (s : CLimiter),
       runTrace (CLimiter.start 1) es = some s →
       numResumes es ≤ numFinishes es) ∧
    (runTrace (CLimiter.start 1) [CEvent.call 0, CEvent.call 1]).map
        (fun s => (s.running, s.queue, s.current)) = some ([0], [1], 1) := by
  refine ⟨?_, ?_, by decide⟩
  · intro m es s h hsafe
    have hb := runTrace_safe_bound es (CLimiter.start m) s h hsafe
      (by simp [CLimiter.start]) (by simp [CLimiter.start])
    omega
  · intro es s h
    have hle := runTrace_resume_le es (CLimiter.start 1) s h
    simp only [CLimiter.start, List.length_nil] at hle
    omega

/-- C3 witness: the restricted bound applied to the concrete FIFO trace. -/
theorem concurrency_bound_amended_witness :
    ((runTrace (CLimiter.start 1) fifoTrace).getD (CLimiter.start 1)).current ≤
      ((runTrace (CLimiter.start 1) fifoTrace).getD (CLimiter.start 1)).maxConcurrent :=
  concurrency_bound_amended.1 1 fifoTrace ((runTrace (CLimiter.start 1) fifoTrace).getD (CLimiter.start 1))
    (by decide) (by decide)

/-- C5: queued waiters are admitted strictly in the order they enqueued — along every valid trace the admission sequence is a prefix of the enqueue sequence; concretely, three waiters queued behind a single slot are admitted in exactly their arrival order 1, 2, 3. -/
theorem concurrency_fifo_admission :
    (∀ (m : Nat) (es : List CEvent) (s : CLimiter),
       runTrace (CLimiter.start m) es = some s →
       ∃ t, resumeSeq (CLimiter.start m) es ++ t = enqSeq (CLimiter.start m) es) ∧
    enqSeq (CLimiter.start 1) fifoTrace = [1, 2, 3] ∧
    resumeSeq (CLimiter.start 1) fifoTrace = [1, 2, 3] ∧
    (runTrace (CLimiter.start 1) fifoTrace).isSome = true := by
  refine ⟨?_, by decide, by decide, by decide⟩
  intro m es s h
  have hq := runTrace_queue_order es (CLimiter.start m) s h
  refine ⟨s.woken ++ s.queue, ?_⟩
  simpa [CLimiter.start] using hq

/-- C5 witness: the prefix property applied to the concrete three-waiter trace. -/
theorem concurrency_fifo_admission_witness :
    ∃ t, resumeSeq (CLimiter.start 1) fifoTrace ++ t = enqSeq (CLimiter.start 1) fifoTrace :=
  concurrency_fifo_admission.1 1 fifoTrace ((runTrace (CLimiter.start 1) fifoTrace).getD (CLimiter.start 1))
    (by decide)

/-- C6: the `finally` release is identical for success and failure (the finish step does not depend on the outcome flag); a finish decrements `current` by one, marks the task finished, and wakes exactly the queue head when one is queued; and along every trace `current = running.length` (so when nothing is running the counter is back at zero — no slot leaks) while each task finishes at most once. -/
theorem slot_release_exactly_once :
    (∀ (s : CLimiter) (id : Nat),
       cstep s (CEvent.finish id true) = cstep s (CEvent.finish id false)) ∧
    (∀ (s : CLimiter) (id : Nat) (ok : Bool) (s2 : CLimiter),
       cstep s (CEvent.finish id ok) = some s2 →
       id ∈ s.running ∧
       s2.current = s.current - 1 ∧
       s2.finished = s.finished ++ [id] ∧
       s2.running = s.running.erase id ∧
       (∀ q qs, s.queue = q :: qs → s2.woken = s.woken ++ [q] ∧ s2.queue = qs) ∧
       (s.queue = [] → s2.woken = s.woken ∧ s2.queue = [])) ∧
    (∀ (m : Nat) (es : List CEvent) (s : CLimiter),
       runTrace (CLimiter.start m) es = some s →
       s.current = s.running.length ∧ (finishSeq (CLimiter.start m) es).Nodup) := by
  refine ⟨fun s id => rfl, ?_, ?_⟩
  · intro s id ok s2 h
    obtain ⟨hmem, hcase⟩ := cstep_finish_cases s id ok s2 h
    rcases hcase with ⟨hqnil, h2⟩ | ⟨q, qs, hq, h2⟩ <;> subst h2
    · refine ⟨hmem, rfl, rfl, rfl, ?_, ?_⟩
      · intro q qs heq
        rw [hqnil] at heq
        cases heq
      · intro _
        exact ⟨rfl, hqnil⟩
    · refine ⟨hmem, rfl, rfl, rfl, ?_, ?_⟩
      · intro q2 qs2 heq
        rw [hq] at heq
        cases heq
        exact ⟨rfl, rfl⟩
      · intro heq
        rw [hq] at heq
        cases heq
  · intro m es s h
    refine ⟨?_, ?_⟩
    · exact runTrace_pres (fun st => st.current = st.running.length)
        cstep_cur_run es (CLimiter.start m) s h (by simp [CLimiter.start])
    · have := finishSeq_nodup_aux es (CLimiter.start m) s h (by simp [CLimiter.start, allIds])
      simpa [CLimiter.start] using this

/-- C6 witness: the trace clause applied to the concrete FIFO trace. -/
theorem slot_release_exactly_once_witness :
    ((runTrace (CLimiter.start 1) fifoTrace).getD (CLimiter.start 1)).current =
      ((runTrace (CLimiter.start 1) fifoTrace).getD (CLimiter.start 1)).running.length ∧
    (finishSeq (CLimiter.start 1) fifoTrace).Nodup :=
  slot_release_exactly_once.2.2 1 fifoTrace ((runTrace (CLimiter.start 1) fifoTrace).getD (CLimiter.start 1))
    (by decide)
